import Mathlib

/-!
Shallow embedding of `src/main.rs` (the adapter-party repository).

Modelling conventions:
* Rust `&'static str` is modeled as `List Char` (`Str` below), so that the
  suffix manipulation done by `Adapter::reverse` can be reasoned about
  structurally.
* Rust's derived `PartialOrd` on `Thread` (variant order first, then the
  field, strings compared lexicographically) is `Thread.ltB`.
* `HashSet<Adapter>` membership uses `Adapter`'s custom `PartialEq`/`Hash`
  (the unordered pair of ends, labels ignored); it is modeled by a list
  together with `usedContains`, membership modulo `Adapter.eqB`.
* The `while let Some(state) = states.pop()` worklist loop of `make_chain`
  is modeled by `searchLoopF`, indexed by a fuel bound on the number of
  loop iterations; the bound `stackMeasure + 1` is proved sufficient
  (`make_chain_total`), so the `Option.getD []` in `make_chain` never takes
  its default.
-/

namespace AdapterParty

/-- Rust string slices, as lists of characters. -/
abbrev Str : Type := List Char

/-- Lexicographic strict order on character lists: the ordering Rust uses for
`str` when deriving `PartialOrd` for `Thread`. -/
def strLt : Str → Str → Bool
  | [], [] => false
  | [], _ :: _ => true
  | _ :: _, [] => false
  | c :: s, d :: t => if c < d then true else if d < c then false else strLt s t

/-- `enum Thread { M(&'static str), F(&'static str) }`. -/
inductive Thread : Type where
  | M (name : Str)
  | F (name : Str)
deriving DecidableEq

/-- `const NIL_THREAD: Thread = Thread::M("nil");` -/
def NIL_THREAD : Thread := Thread.M "nil".toList

/-- `Thread::opposite`: flips gender, keeps the name. -/
def Thread.opposite : Thread → Thread
  | .M x => .F x
  | .F x => .M x

/-- The derived `PartialOrd` order on `Thread`: variant `M` before `F`,
same-variant values compared on the name. -/
def Thread.ltB : Thread → Thread → Bool
  | .M x, .M y => strLt x y
  | .M _, .F _ => true
  | .F _, .M _ => false
  | .F x, .F y => strLt x y

/-- `struct Adapter(Thread, Thread, Cow<'static, str>)`; fields `a`, `b`,
`name` stand for `.0`, `.1`, `.2`. -/
structure Adapter : Type where
  a : Thread
  b : Thread
  name : Str
deriving DecidableEq

/-- `Adapter::new`: empty label. -/
def Adapter.new (a b : Thread) : Adapter := ⟨a, b, []⟩

/-- `Adapter::with_name`. -/
def Adapter.with_name (x : Adapter) (n : Str) : Adapter := ⟨x.a, x.b, n⟩

/-- The `" (reversed)"` marker appended/stripped by `Adapter::reverse`. -/
def revMarker : Str := " (reversed)".toList

/-- `Adapter::reverse`: swaps the two ends; an empty label is kept, a label
ending in `" (reversed)"` has that suffix stripped (`strip_suffix`), and any
other label gets the suffix appended. -/
def Adapter.reverse (x : Adapter) : Adapter :=
  let n : Str :=
    if x.name = [] then x.name
    else if revMarker.isSuffixOf x.name then x.name.take (x.name.length - revMarker.length)
    else x.name ++ revMarker
  ⟨x.b, x.a, n⟩

/-- `impl PartialEq for Adapter`: equality on the unordered pair of ends,
label ignored (matches the same adapter reversed). -/
def Adapter.eqB (x y : Adapter) : Bool :=
  (x.a == y.a && x.b == y.b) || (x.a == y.b && x.b == y.a)

/-- The ordered pair of threads fed to the hasher by `impl Hash for Adapter`
(the two ends sorted by the derived `PartialOrd`).  The Rust hash value is a
function of exactly this pair, so equal `hashPair`s give equal hash values. -/
def Adapter.hashPair (x : Adapter) : Thread × Thread :=
  if x.a.ltB x.b then (x.a, x.b) else (x.b, x.a)

/-- `Chain::add`.  `last` is `self.0.last().unwrap().1`; Rust panics on an
empty chain (never reachable through `make_chain`, whose chains always hold
at least the start marker), modeled by the `none` branch of `getLast?`. -/
def Chain.add (c : List Adapter) (next : Adapter) : Option (List Adapter) :=
  match c.getLast? with
  | none => none
  | some lastA =>
    if lastA.b = next.a.opposite then some (c ++ [next])
    else if lastA.b = next.b.opposite then some (c ++ [next.reverse])
    else none

/-- The synthetic start boundary marker `Adapter::new(NIL_THREAD, start).with_name("start")`. -/
def startMarker (start : Thread) : Adapter := ⟨NIL_THREAD, start, "start".toList⟩

/-- The synthetic end boundary marker `Adapter::new(end, NIL_THREAD).with_name("end")`. -/
def endMarker (endT : Thread) : Adapter := ⟨endT, NIL_THREAD, "end".toList⟩

/-- The search state of `make_chain`: the set of already-used adapters and the
partial chain.  The Rust `HashSet<Adapter>` is modeled as a list queried
modulo `Adapter.eqB`. -/
structure SearchState : Type where
  used : List Adapter
  chain : List Adapter

/-- `HashSet::contains` under `Adapter`'s custom `PartialEq`/`Hash`. -/
def usedContains (used : List Adapter) (x : Adapter) : Bool :=
  used.any (fun u => u.eqB x)

/-- `chain.0.last().unwrap().1`, the chain's open end (chains reaching this
point are always non-empty; the empty default is never taken). -/
def lastEnd (c : List Adapter) : Thread :=
  match c.getLast? with
  | some x => x.b
  | none => NIL_THREAD

/-- One iteration of the inner `for a in equipment` loop body of `make_chain`
on a single candidate adapter: skip it when already used, otherwise try
`Chain::add`; on success either complete the chain (`Sum.inl`, pushed onto
`found`) or produce the extended search state (`Sum.inr`, pushed onto the
worklist). -/
def tryAdapt (endT : Thread) (s : SearchState) (x : Adapter) :
    Option (Sum (List Adapter) SearchState) :=
  if usedContains s.used x then none
  else
    match Chain.add s.chain x with
    | none => none
    | some c =>
      if (lastEnd c).opposite = endT then some (Sum.inl (c ++ [endMarker endT]))
      else some (Sum.inr ⟨x :: s.used, c⟩)

/-- The completed chains the inner `for` loop appends to `found` while
processing one popped state, in equipment order. -/
def stepFound (E : List Adapter) (endT : Thread) (s : SearchState) : List (List Adapter) :=
  E.filterMap fun x =>
    match tryAdapt endT s x with
    | some (Sum.inl c) => some c
    | _ => none

/-- The new states the inner `for` loop pushes onto the worklist while
processing one popped state, in equipment order. -/
def stepStates (E : List Adapter) (endT : Thread) (s : SearchState) : List SearchState :=
  E.filterMap fun x =>
    match tryAdapt endT s x with
    | some (Sum.inr st) => some st
    | _ => none

/-- Number of equipment adapters not yet in `used` (modulo `Adapter.eqB`):
the branching capacity left to a state. -/
def slack (E used : List Adapter) : Nat :=
  (E.filter fun x => !usedContains used x).length

/-- Termination measure for the worklist: each state weighs
`(|E| + 1) ^ slack`, so processing a state strictly shrinks the total. -/
def stackMeasure (E : List Adapter) (states : List SearchState) : Nat :=
  (states.map fun s => (E.length + 1) ^ slack E s.used).sum

/-- The `while let Some(state) = states.pop()` loop of `make_chain`.  The head
of `states` is the top of the Rust `Vec` stack, so the children of a popped
state are pushed reversed (the last one pushed is popped first), and `found`
grows at the tail.  `fuel` bounds the number of loop iterations; `none` means
the bound was hit (proved impossible for the bound used by `make_chain`). -/
def searchLoopF (E : List Adapter) (endT : Thread) :
    Nat → List SearchState → List (List Adapter) → Option (List (List Adapter))
  | _, [], found => some found
  | 0, _ :: _, _ => none
  | fuel + 1, s :: rest, found =>
    searchLoopF E endT fuel ((stepStates E endT s).reverse ++ rest)
      (found ++ stepFound E endT s)

/-- `make_chain(start, end, equipment)`.  The worklist starts with the single
state `(∅, [start marker])`; the fuel `stackMeasure + 1` is an upper bound on
the number of loop iterations (`make_chain_total`), so the default `[]` of
`getD` is never used. -/
def make_chain (start endT : Thread) (equipment : List Adapter) : List (List Adapter) :=
  (searchLoopF equipment endT
    (stackMeasure equipment [⟨[], [startMarker start]⟩] + 1)
    [⟨[], [startMarker start]⟩] []).getD []

/-! ### Order lemmas for the derived `PartialOrd` on `Thread` -/

lemma strLt_asymm : ∀ s t : Str, strLt s t = true → strLt t s = false := by
  intro s
  induction s with
  | nil =>
    intro t h
    cases t with
    | nil => simp [strLt] at h
    | cons d t => simp [strLt]
  | cons c s ih =>
    intro t h
    cases t with
    | nil => simp [strLt] at h
    | cons d t =>
      simp only [strLt] at h ⊢
      by_cases hcd : c < d
      · simp [hcd, lt_asymm hcd]
      · by_cases hdc : d < c
        · simp [hcd, hdc] at h
        · simp only [hcd, hdc, if_false] at h ⊢
          exact ih t h

lemma strLt_conn : ∀ s t : Str, strLt s t = false → strLt t s = false → s = t := by
  intro s
  induction s with
  | nil =>
    intro t h _
    cases t with
    | nil => rfl
    | cons d t => simp [strLt] at h
  | cons c s ih =>
    intro t h h'
    cases t with
    | nil => simp [strLt] at h'
    | cons d t =>
      simp only [strLt] at h h'
      by_cases hcd : c < d
      · simp [hcd] at h
      · by_cases hdc : d < c
        · simp [hdc] at h'
        · have hc : c = d := le_antisymm (le_of_not_lt hdc) (le_of_not_lt hcd)
          simp only [hcd, hdc, if_false] at h h'
          rw [hc, ih t h h']

lemma Thread.ltB_asymm (a b : Thread) (h : Thread.ltB a b = true) : Thread.ltB b a = false := by
  cases a <;> cases b <;> simp only [Thread.ltB] at h ⊢ <;>
    first
      | rfl
      | exact strLt_asymm _ _ h
      | exact absurd h (by decide)

lemma Thread.ltB_conn (a b : Thread) (h : Thread.ltB a b = false) (h' : Thread.ltB b a = false) :
    a = b := by
  cases a <;> cases b <;> simp only [Thread.ltB] at h h' <;>
    first
      | rw [strLt_conn _ _ h h']
      | exact absurd h (by decide)
      | exact absurd h' (by decide)

/-- Claim C6: for all threads `a`, `b` and all labels, `Adapter(a,b)` and
`Adapter(b,a)` are equal under `Adapter`'s `PartialEq`, and the hasher is fed
the same ordered pair of ends for both (so their hash values coincide):
equality and hashing are defined on the unordered pair of ends. -/
theorem adapter_unordered_eq_hash (a b : Thread) (l₁ l₂ : Str) :
    Adapter.eqB ⟨a, b, l₁⟩ ⟨b, a, l₂⟩ = true ∧
      Adapter.hashPair ⟨a, b, l₁⟩ = Adapter.hashPair ⟨b, a, l₂⟩ := by
  constructor
  · simp [Adapter.eqB]
  · simp only [Adapter.hashPair]
    by_cases hab : Thread.ltB a b = true
    · rw [if_pos hab, if_neg (by rw [Thread.ltB_asymm a b hab]; simp)]
    · have hab' : Thread.ltB a b = false := by revert hab; cases Thread.ltB a b <;> simp
      by_cases hba : Thread.ltB b a = true
      · rw [if_neg (by rw [hab']; simp), if_pos hba]
      · have hba' : Thread.ltB b a = false := by revert hba; cases Thread.ltB b a <;> simp
        rw [if_neg (by rw [hab']; simp), if_neg (by rw [hba']; simp),
          Thread.ltB_conn a b hab' hba']

/-! ### The NIL sentinel (claim C9) -/

/-- Claim C9 counterexample: the sentinel is `Thread::M("nil")`, so the
caller-constructible thread `M("nil")` is equal to the sentinel — it does
collide with a real thread name. -/
theorem nil_thread_cex : Thread.M "nil".toList = NIL_THREAD := rfl

/-- Claim C9 (amended): the sentinel `NIL_THREAD` is distinct from every
female-tagged thread, and from every male-tagged thread whose name is not
exactly `"nil"`; the collision forced by the counterexample (`M("nil")`) is
the only one. -/
theorem nil_thread_fresh (s : Str) :
    Thread.F s ≠ NIL_THREAD ∧ (s ≠ "nil".toList → Thread.M s ≠ NIL_THREAD) := by
  refine ⟨fun h => ?_, fun hs h => ?_⟩
  · exact Thread.noConfusion h
  · exact hs (by injection h)

/-- Witness for C9 (amended) at the concrete name `"EF"`. -/
theorem nil_thread_fresh_witness :
    Thread.F "EF".toList ≠ NIL_THREAD ∧ Thread.M "EF".toList ≠ NIL_THREAD :=
  ⟨(nil_thread_fresh "EF".toList).1, (nil_thread_fresh "EF".toList).2 (by decide)⟩

/-! ### `Chain::add` (claim C3) -/

/-- Claim C3: on a non-empty chain (written `l ++ [lastA]`, so its open end is
`lastA.b`), `Chain::add` appends the candidate unmodified when the open end
equals `candidate.a.opposite()`, appends `candidate.reverse()` when it instead
equals `candidate.b.opposite()`, and returns `none` otherwise.  The function
is pure in this embedding by construction: it returns a fresh list and the
argument chain value `l ++ [lastA]` is untouched. -/
theorem chain_add_spec (l : List Adapter) (lastA next : Adapter) :
    (lastA.b = next.a.opposite →
      Chain.add (l ++ [lastA]) next = some ((l ++ [lastA]) ++ [next])) ∧
    (lastA.b ≠ next.a.opposite → lastA.b = next.b.opposite →
      Chain.add (l ++ [lastA]) next = some ((l ++ [lastA]) ++ [next.reverse])) ∧
    (lastA.b ≠ next.a.opposite → lastA.b ≠ next.b.opposite →
      Chain.add (l ++ [lastA]) next = none) := by
  refine ⟨fun h1 => ?_, fun h1 h2 => ?_, fun h1 h2 => ?_⟩
  · simp only [Chain.add, List.getLast?_concat, if_pos h1]
  · simp only [Chain.add, List.getLast?_concat, if_neg h1, if_pos h2]
  · simp only [Chain.add, List.getLast?_concat, if_neg h1, if_neg h2]

/-- Witness for C3 at concrete inputs (first branch: unreversed append). -/
theorem chain_add_spec_witness :
    Chain.add [startMarker (Thread.F "A".toList)]
        (Adapter.new (Thread.M "A".toList) (Thread.F "B".toList)) =
      some [startMarker (Thread.F "A".toList),
        Adapter.new (Thread.M "A".toList) (Thread.F "B".toList)] := by
  have h := (chain_add_spec [] (startMarker (Thread.F "A".toList))
    (Adapter.new (Thread.M "A".toList) (Thread.F "B".toList))).1 (by decide)
  simpa using h

/-! ### `Adapter::reverse` round trip (claim C7) -/

lemma isPrefixOf_append_self : ∀ l t : Str, l.isPrefixOf (l ++ t) = true := by
  intro l t
  induction l with
  | nil => simp
  | cons c l ih => simp [List.isPrefixOf, ih]

lemma isSuffixOf_append_self (l t : Str) : t.isSuffixOf (l ++ t) = true := by
  simp [List.isSuffixOf, List.reverse_append, isPrefixOf_append_self]

/-- Claim C7 counterexample: the adapter labeled exactly `" (reversed)"` does
not round-trip — the first `reverse()` strips the label to the empty string
and the second keeps it empty, so the label is not restored. -/
theorem adapter_reverse_roundtrip_cex :
    Adapter.reverse (Adapter.reverse
        ⟨Thread.M "A".toList, Thread.F "B".toList, " (reversed)".toList⟩) ≠
      ⟨Thread.M "A".toList, Thread.F "B".toList, " (reversed)".toList⟩ := by
  decide

/-- A marker-suffixed label splits as its stripped prefix followed by the
marker. -/
lemma isSuffixOf_take_append {n : Str} (h : revMarker.isSuffixOf n = true) :
    n.take (n.length - revMarker.length) ++ revMarker = n := by
  obtain ⟨s, rfl⟩ := List.isSuffixOf_iff_suffix.mp h
  have hlen : (s ++ revMarker).length - revMarker.length = s.length := by
    simp [List.length_append]
  rw [hlen, List.take_left]

/-- Claim C7 (amended): `adapter.reverse().reverse()` yields the original
adapter with the label restored exactly, for every adapter whose label
either does not end with the `" (reversed)"` marker, or ends with it with a
stripped prefix that is non-empty and does not itself end with the marker
(so e.g. `"foo"` and `"foo (reversed)"` both round-trip).  The only labels
excluded are marker-suffixed ones whose stripped prefix is empty or again
marker-suffixed, such as `" (reversed)"` itself — the counterexample
above. -/
theorem adapter_reverse_roundtrip (x : Adapter)
    (h : revMarker.isSuffixOf x.name = false ∨
      (x.name.take (x.name.length - revMarker.length) ≠ [] ∧
        revMarker.isSuffixOf (x.name.take (x.name.length - revMarker.length)) = false)) :
    x.reverse.reverse = x := by
  obtain ⟨a, b, n⟩ := x
  by_cases hsfx : revMarker.isSuffixOf n = true
  · rcases h with h1 | ⟨hne, hnsfx⟩
    · rw [hsfx] at h1; cases h1
    · have hsplit := isSuffixOf_take_append hsfx
      have hn_ne : n ≠ [] := by
        intro hnil
        rw [hnil] at hsplit
        simp only [List.take_nil, List.nil_append] at hsplit
        exact absurd hsplit (by decide)
      show Adapter.reverse ⟨b, a, _⟩ = _
      rw [show (if n = [] then n
          else if revMarker.isSuffixOf n then n.take (n.length - revMarker.length)
          else n ++ revMarker) = n.take (n.length - revMarker.length) by
        rw [if_neg hn_ne, if_pos hsfx]]
      simp only [Adapter.reverse, hne, if_false, hnsfx, Bool.false_eq_true, hsplit]
  · have h' : revMarker.isSuffixOf n = false := by
      revert hsfx; cases revMarker.isSuffixOf n <;> simp
    by_cases hn : n = []
    · subst hn; rfl
    · have hne : n ++ revMarker ≠ [] := by
        simp only [ne_eq, List.append_eq_nil]
        rintro ⟨rfl, -⟩
        exact hn rfl
      show Adapter.reverse ⟨b, a, _⟩ = _
      rw [show (if n = [] then n
          else if revMarker.isSuffixOf n then n.take (n.length - revMarker.length)
          else n ++ revMarker) = n ++ revMarker by rw [if_neg hn, h']; simp]
      simp only [Adapter.reverse, hne, if_false, isSuffixOf_append_self n revMarker,
        if_true, List.length_append, Nat.add_sub_cancel, List.take_left]

/-- Witness for C7 (amended) at a concrete adapter labeled
`"foo (reversed)"`: the first `reverse()` strips the marker to `"foo"`, the
second appends it back, restoring the label exactly. -/
theorem adapter_reverse_roundtrip_witness :
    Adapter.reverse (Adapter.reverse
        ⟨Thread.M "A".toList, Thread.F "B".toList, "foo (reversed)".toList⟩) =
      ⟨Thread.M "A".toList, Thread.F "B".toList, "foo (reversed)".toList⟩ :=
  adapter_reverse_roundtrip _ (by decide)

/-! ### Properties of `Adapter`'s `PartialEq` -/

lemma Adapter.eqB_iff {x y : Adapter} :
    Adapter.eqB x y = true ↔ (x.a = y.a ∧ x.b = y.b) ∨ (x.a = y.b ∧ x.b = y.a) := by
  simp [Adapter.eqB]

lemma Adapter.eqB_refl (x : Adapter) : Adapter.eqB x x = true := by
  rw [Adapter.eqB_iff]; exact Or.inl ⟨rfl, rfl⟩

lemma Adapter.eqB_trans {x y z : Adapter} (h₁ : Adapter.eqB x y = true)
    (h₂ : Adapter.eqB y z = true) : Adapter.eqB x z = true := by
  rw [Adapter.eqB_iff] at h₁ h₂ ⊢
  rcases h₁ with ⟨e₁, e₂⟩ | ⟨e₁, e₂⟩ <;> rcases h₂ with ⟨f₁, f₂⟩ | ⟨f₁, f₂⟩
  · exact Or.inl ⟨e₁.trans f₁, e₂.trans f₂⟩
  · exact Or.inr ⟨e₁.trans f₁, e₂.trans f₂⟩
  · exact Or.inr ⟨e₁.trans f₂, e₂.trans f₁⟩
  · exact Or.inl ⟨e₁.trans f₂, e₂.trans f₁⟩

lemma Adapter.reverse_a (x : Adapter) : x.reverse.a = x.b := rfl

lemma Adapter.reverse_b (x : Adapter) : x.reverse.b = x.a := rfl

lemma Adapter.eqB_reverse_right {x y : Adapter}
    (h : Adapter.eqB x y.reverse = true) : Adapter.eqB x y = true := by
  rw [Adapter.eqB_iff] at h ⊢
  rw [Adapter.reverse_a, Adapter.reverse_b] at h
  tauto

lemma Adapter.eqB_reverse_self (x : Adapter) : Adapter.eqB x x.reverse = true := by
  rw [Adapter.eqB_iff, Adapter.reverse_a, Adapter.reverse_b]
  exact Or.inr ⟨rfl, rfl⟩

/-! ### The worklist measure and termination of `make_chain` (claim C10) -/

lemma filter_length_mono {α : Type} (l : List α) (p q : α → Bool)
    (hpq : ∀ y, p y = true → q y = true) :
    (l.filter p).length ≤ (l.filter q).length :=
  (List.monotone_filter_right l hpq).length_le

lemma filter_length_lt {α : Type} (l : List α) (p q : α → Bool)
    (hpq : ∀ y, p y = true → q y = true) (x : α) (hx : x ∈ l) (hqx : q x = true)
    (hpx : p x = false) : (l.filter p).length < (l.filter q).length := by
  induction l with
  | nil => cases hx
  | cons a t ih =>
    rcases List.mem_cons.mp hx with rfl | hxt
    · have h1 : (x :: t).filter p = t.filter p := by rw [List.filter_cons, hpx]; simp
      have h2 : (x :: t).filter q = x :: t.filter q := by rw [List.filter_cons, hqx]; simp
      rw [h1, h2, List.length_cons]
      exact Nat.lt_succ_of_le (filter_length_mono t p q hpq)
    · have hlt := ih hxt
      by_cases hpa : p a = true
      · have hqa := hpq a hpa
        simp only [List.filter_cons, hpa, hqa, if_true, List.length_cons]
        omega
      · have hpa' : p a = false := by revert hpa; cases p a <;> simp
        rw [List.filter_cons, List.filter_cons, hpa']
        by_cases hqa : q a = true
        · simp only [hqa, if_true, Bool.false_eq_true, if_false, List.length_cons]
          omega
        · have hqa' : q a = false := by revert hqa; cases q a <;> simp
          simpa [hqa'] using hlt

lemma usedContains_cons (u : Adapter) (used : List Adapter) (x : Adapter) :
    usedContains (u :: used) x = (u.eqB x || usedContains used x) := by
  simp [usedContains]

lemma slack_pos {E used : List Adapter} {x : Adapter} (hx : x ∈ E)
    (h : usedContains used x = false) : 1 ≤ slack E used := by
  have hmem : x ∈ E.filter fun y => !usedContains used y :=
    List.mem_filter.mpr ⟨hx, by simp [h]⟩
  have := List.length_pos.mpr (List.ne_nil_of_mem hmem)
  simpa [slack] using this

lemma slack_insert_lt {E used : List Adapter} {x : Adapter} (hx : x ∈ E)
    (h : usedContains used x = false) : slack E (x :: used) < slack E used := by
  apply filter_length_lt E _ _ ?mono x hx (by simp [h]) (by simp [usedContains_cons, Adapter.eqB_refl])
  intro y hy
  simp only [Bool.not_eq_true', usedContains_cons, Bool.or_eq_false_iff] at hy ⊢
  exact hy.2

lemma stackMeasure_cons (E : List Adapter) (s : SearchState) (rest : List SearchState) :
    stackMeasure E (s :: rest) =
      (E.length + 1) ^ slack E s.used + stackMeasure E rest := by
  simp [stackMeasure]

lemma stackMeasure_append (E : List Adapter) (l₁ l₂ : List SearchState) :
    stackMeasure E (l₁ ++ l₂) = stackMeasure E l₁ + stackMeasure E l₂ := by
  simp [stackMeasure]

lemma stackMeasure_reverse (E : List Adapter) (l : List SearchState) :
    stackMeasure E l.reverse = stackMeasure E l := by
  simp only [stackMeasure, List.map_reverse]
  exact List.sum_reverse _

lemma tryAdapt_inr_elim {endT : Thread} {s : SearchState} {x : Adapter} {st : SearchState}
    (h : tryAdapt endT s x = some (Sum.inr st)) :
    usedContains s.used x = false ∧
      ∃ c, Chain.add s.chain x = some c ∧ (lastEnd c).opposite ≠ endT ∧
        st = ⟨x :: s.used, c⟩ := by
  unfold tryAdapt at h
  by_cases hu : usedContains s.used x = true
  · rw [if_pos hu] at h; cases h
  · have hu' : usedContains s.used x = false := by revert hu; cases usedContains s.used x <;> simp
    rw [if_neg (by simp [hu'])] at h
    refine ⟨hu', ?_⟩
    cases hadd : Chain.add s.chain x with
    | none => rw [hadd] at h; cases h
    | some c =>
      rw [hadd] at h
      dsimp only at h
      by_cases hend : (lastEnd c).opposite = endT
      · rw [if_pos hend] at h; cases h
      · rw [if_neg hend] at h
        simp only [Option.some.injEq, Sum.inr.injEq] at h
        exact ⟨c, rfl, hend, h.symm⟩

lemma tryAdapt_inl_elim {endT : Thread} {s : SearchState} {x : Adapter} {c : List Adapter}
    (h : tryAdapt endT s x = some (Sum.inl c)) :
    usedContains s.used x = false ∧
      ∃ c', Chain.add s.chain x = some c' ∧ (lastEnd c').opposite = endT ∧
        c = c' ++ [endMarker endT] := by
  unfold tryAdapt at h
  by_cases hu : usedContains s.used x = true
  · rw [if_pos hu] at h; cases h
  · have hu' : usedContains s.used x = false := by revert hu; cases usedContains s.used x <;> simp
    rw [if_neg (by simp [hu'])] at h
    refine ⟨hu', ?_⟩
    cases hadd : Chain.add s.chain x with
    | none => rw [hadd] at h; cases h
    | some c' =>
      rw [hadd] at h
      dsimp only at h
      by_cases hend : (lastEnd c').opposite = endT
      · rw [if_pos hend] at h
        simp only [Option.some.injEq, Sum.inl.injEq] at h
        exact ⟨c', rfl, hend, h.symm⟩
      · rw [if_neg hend] at h; cases h

lemma mem_stepStates {E : List Adapter} {endT : Thread} {s : SearchState} {st : SearchState} :
    st ∈ stepStates E endT s ↔ ∃ x ∈ E, tryAdapt endT s x = some (Sum.inr st) := by
  simp only [stepStates, List.mem_filterMap]
  constructor
  · rintro ⟨x, hx, hm⟩
    refine ⟨x, hx, ?_⟩
    cases ht : tryAdapt endT s x with
    | none => simp [ht] at hm
    | some v =>
      cases v with
      | inl c => simp [ht] at hm
      | inr st2 => simp only [ht, Option.some.injEq] at hm; rw [hm]
  · rintro ⟨x, hx, ht⟩
    exact ⟨x, hx, by rw [ht]⟩

lemma mem_stepFound {E : List Adapter} {endT : Thread} {s : SearchState} {c : List Adapter} :
    c ∈ stepFound E endT s ↔ ∃ x ∈ E, tryAdapt endT s x = some (Sum.inl c) := by
  simp only [stepFound, List.mem_filterMap]
  constructor
  · rintro ⟨x, hx, hm⟩
    refine ⟨x, hx, ?_⟩
    cases ht : tryAdapt endT s x with
    | none => simp [ht] at hm
    | some v =>
      cases v with
      | inr st2 => simp [ht] at hm
      | inl c2 => simp only [ht, Option.some.injEq] at hm; rw [hm]
  · rintro ⟨x, hx, ht⟩
    exact ⟨x, hx, by rw [ht]⟩

lemma stackMeasure_step (E : List Adapter) (endT : Thread) (s : SearchState) :
    stackMeasure E (stepStates E endT s) < (E.length + 1) ^ slack E s.used := by
  by_cases hne : stepStates E endT s = []
  · rw [hne]
    simp only [stackMeasure, List.map_nil, List.sum_nil]
    exact pow_pos (Nat.succ_pos E.length) (slack E s.used)
  · obtain ⟨st, hst⟩ := List.exists_mem_of_ne_nil _ hne
    obtain ⟨x, hxE, ht⟩ := mem_stepStates.mp hst
    obtain ⟨hu, c, hadd, hend, hst_eq⟩ := tryAdapt_inr_elim ht
    have hk : 1 ≤ slack E s.used := slack_pos hxE hu
    have hbound : ∀ m ∈ (stepStates E endT s).map
        (fun s' => (E.length + 1) ^ slack E s'.used),
        m ≤ (E.length + 1) ^ (slack E s.used - 1) := by
      intro m hm
      obtain ⟨st', hst', rfl⟩ := List.mem_map.mp hm
      obtain ⟨x', hx'E, ht'⟩ := mem_stepStates.mp hst'
      obtain ⟨hu', c', hadd', hend', hst'eq⟩ := tryAdapt_inr_elim ht'
      have hlt : slack E st'.used < slack E s.used := by
        rw [hst'eq]
        exact slack_insert_lt hx'E hu'
      exact Nat.pow_le_pow_right (Nat.succ_pos _) (by omega)
    have hsum : stackMeasure E (stepStates E endT s) ≤
        (stepStates E endT s).length * (E.length + 1) ^ (slack E s.used - 1) := by
      have := List.sum_le_card_nsmul _ _ hbound
      simpa [stackMeasure, smul_eq_mul] using this
    have hlen : (stepStates E endT s).length ≤ E.length := by
      simp only [stepStates]
      exact List.length_filterMap_le _ _
    have hpos : 0 < (E.length + 1) ^ (slack E s.used - 1) :=
      pow_pos (Nat.succ_pos E.length) _
    calc stackMeasure E (stepStates E endT s)
        ≤ (stepStates E endT s).length * (E.length + 1) ^ (slack E s.used - 1) := hsum
      _ ≤ E.length * (E.length + 1) ^ (slack E s.used - 1) :=
          Nat.mul_le_mul_right _ hlen
      _ < (E.length + 1) * (E.length + 1) ^ (slack E s.used - 1) :=
          mul_lt_mul_of_pos_right (Nat.lt_succ_self _) hpos
      _ = (E.length + 1) ^ (slack E s.used - 1 + 1) := (pow_succ' _ _).symm
      _ = (E.length + 1) ^ slack E s.used := by congr 1; omega

lemma stackMeasure_iter (E : List Adapter) (endT : Thread) (s : SearchState)
    (rest : List SearchState) :
    stackMeasure E ((stepStates E endT s).reverse ++ rest) <
      stackMeasure E (s :: rest) := by
  rw [stackMeasure_append, stackMeasure_reverse, stackMeasure_cons]
  exact Nat.add_lt_add_right (stackMeasure_step E endT s) _

lemma searchLoopF_some (E : List Adapter) (endT : Thread) :
    ∀ (fuel : Nat) (states : List SearchState) (found : List (List Adapter)),
      stackMeasure E states < fuel →
      ∃ r, searchLoopF E endT fuel states found = some r := by
  intro fuel
  induction fuel with
  | zero => intro states found h; omega
  | succ n ih =>
    intro states found h
    cases states with
    | nil => exact ⟨found, rfl⟩
    | cons s rest =>
      have hstep := stackMeasure_iter E endT s rest
      exact ih _ _ (by omega)

/-- Helper: `make_chain` is exactly the loop run with the proven-sufficient
fuel bound. -/
lemma make_chain_run (start endT : Thread) (E : List Adapter) :
    searchLoopF E endT (stackMeasure E [⟨[], [startMarker start]⟩] + 1)
      [⟨[], [startMarker start]⟩] [] = some (make_chain start endT E) := by
  obtain ⟨r, hr⟩ :=
    searchLoopF_some E endT (stackMeasure E [⟨[], [startMarker start]⟩] + 1)
      [⟨[], [startMarker start]⟩] [] (Nat.lt_succ_self _)
  rw [hr]
  unfold make_chain
  rw [hr]
  rfl

/-- Claim C10: `make_chain` terminates for every start, end and finite
inventory.  Every state pushed onto the worklist has a used-set holding one
more inventory adapter than its parent (`slack` strictly decreases), so the
measure `stackMeasure` strictly decreases at each `while` iteration; the loop
therefore finishes within `stackMeasure + 1` iterations — the fuelled loop
returns `some` (never exhausting its bound), and `make_chain` is total. -/
theorem make_chain_total (start endT : Thread) (E : List Adapter) :
    searchLoopF E endT (stackMeasure E [⟨[], [startMarker start]⟩] + 1)
      [⟨[], [startMarker start]⟩] [] = some (make_chain start endT E) :=
  make_chain_run start endT E

/-! ### A generic invariant of the worklist loop -/

lemma Adapter.eqB_symm {x y : Adapter} (h : Adapter.eqB x y = true) :
    Adapter.eqB y x = true := by
  rw [Adapter.eqB_iff] at h ⊢
  rcases h with ⟨e₁, e₂⟩ | ⟨e₁, e₂⟩
  · exact Or.inl ⟨e₁.symm, e₂.symm⟩
  · exact Or.inr ⟨e₂.symm, e₁.symm⟩

lemma usedContains_iff {used : List Adapter} {x : Adapter} :
    usedContains used x = true ↔ ∃ u ∈ used, Adapter.eqB u x = true := by
  simp [usedContains, List.any_eq_true]

lemma Thread.opposite_opposite (t : Thread) : t.opposite.opposite = t := by
  cases t <;> rfl

lemma Chain.add_elim {c : List Adapter} {x : Adapter} {c' : List Adapter}
    (h : Chain.add c x = some c') :
    ∃ lastA, c.getLast? = some lastA ∧
      ((lastA.b = x.a.opposite ∧ c' = c ++ [x]) ∨
        (lastA.b = x.b.opposite ∧ c' = c ++ [x.reverse])) := by
  unfold Chain.add at h
  cases hl : c.getLast? with
  | none => rw [hl] at h; cases h
  | some lastA =>
    rw [hl] at h
    dsimp only at h
    by_cases h1 : lastA.b = x.a.opposite
    · rw [if_pos h1] at h
      simp only [Option.some.injEq] at h
      exact ⟨lastA, rfl, Or.inl ⟨h1, h.symm⟩⟩
    · rw [if_neg h1] at h
      by_cases h2 : lastA.b = x.b.opposite
      · rw [if_pos h2] at h
        simp only [Option.some.injEq] at h
        exact ⟨lastA, rfl, Or.inr ⟨h2, h.symm⟩⟩
      · rw [if_neg h2] at h; cases h

/-- A successful `Chain::add` appends exactly one adapter, equal (under the
custom `PartialEq`) to the candidate. -/
lemma Chain.add_shape {c : List Adapter} {x : Adapter} {c' : List Adapter}
    (h : Chain.add c x = some c') :
    ∃ y, c' = c ++ [y] ∧ Adapter.eqB x y = true := by
  obtain ⟨lastA, _, hcase⟩ := Chain.add_elim h
  rcases hcase with ⟨-, rfl⟩ | ⟨-, rfl⟩
  · exact ⟨x, rfl, Adapter.eqB_refl x⟩
  · exact ⟨x.reverse, rfl, Adapter.eqB_reverse_self x⟩

lemma lastEnd_append_single (c : List Adapter) (x : Adapter) :
    lastEnd (c ++ [x]) = x.b := by
  simp [lastEnd, List.getLast?_concat]

/-- The master invariant lemma for the worklist loop: an invariant `Inv`
preserved by pushed states whose `stepFound` output satisfies `P` propagates
to every chain in the loop's result. -/
lemma searchLoopF_inv (E : List Adapter) (endT : Thread)
    (P : List Adapter → Prop) (Inv : SearchState → Prop)
    (hstates : ∀ s, Inv s → ∀ st ∈ stepStates E endT s, Inv st)
    (hfound : ∀ s, Inv s → ∀ c ∈ stepFound E endT s, P c) :
    ∀ (fuel : Nat) (states : List SearchState) (found : List (List Adapter))
      (r : List (List Adapter)), searchLoopF E endT fuel states found = some r →
      (∀ s ∈ states, Inv s) → (∀ c ∈ found, P c) → ∀ c ∈ r, P c := by
  intro fuel
  induction fuel with
  | zero =>
    intro states found r h hs hf
    cases states with
    | nil => exact (Option.some.inj h) ▸ hf
    | cons s rest => cases h
  | succ n ih =>
    intro states found r h hs hf
    cases states with
    | nil => exact (Option.some.inj h) ▸ hf
    | cons s rest =>
      have h' : searchLoopF E endT n ((stepStates E endT s).reverse ++ rest)
          (found ++ stepFound E endT s) = some r := h
      refine ih _ _ _ h' ?_ ?_
      · intro st hst
        rcases List.mem_append.mp hst with hrev | hrest
        · exact hstates s (hs s (List.mem_cons_self s rest)) st (List.mem_reverse.mp hrev)
        · exact hs st (List.mem_cons_of_mem _ hrest)
      · intro c hc
        rcases List.mem_append.mp hc with hc | hc
        · exact hf c hc
        · exact hfound s (hs s (List.mem_cons_self s rest)) c hc

/-! ### The adjacency invariant (claim C5) -/

/-- The compatibility relation between consecutive chain entries: the second
endpoint of one adapter mates with (is the `opposite()` of) the first
endpoint of the next. -/
def adjacent (x y : Adapter) : Prop := x.b = y.a.opposite

instance : DecidableRel adjacent := fun x y =>
  inferInstanceAs (Decidable (x.b = y.a.opposite))

lemma chain_add_adjacent {c c' : List Adapter} {x : Adapter}
    (hc : List.Chain' adjacent c) (h : Chain.add c x = some c') :
    List.Chain' adjacent c' := by
  obtain ⟨lastA, hl, hcase⟩ := Chain.add_elim h
  rcases hcase with ⟨h1, rfl⟩ | ⟨h2, rfl⟩
  · refine List.Chain'.append hc (List.chain'_singleton _) ?_
    intro y hy z hz
    rw [hl] at hy
    simp only [Option.mem_def, Option.some.injEq, List.head?_cons] at hy hz
    subst hy; subst hz
    exact h1
  · refine List.Chain'.append hc (List.chain'_singleton _) ?_
    intro y hy z hz
    rw [hl] at hy
    simp only [Option.mem_def, Option.some.injEq, List.head?_cons] at hy hz
    subst hy; subst hz
    exact h2

/-- Claim C5: every chain returned by `make_chain` (synthetic boundary
markers included) has every consecutive pair of adapters compatible: the
second endpoint of adapter `i` equals the `opposite()` of the first endpoint
of adapter `i + 1`. -/
theorem make_chain_adjacent (start endT : Thread) (E : List Adapter) :
    ∀ c ∈ make_chain start endT E, List.Chain' adjacent c := by
  intro c hc
  refine searchLoopF_inv E endT (fun c => List.Chain' adjacent c)
    (fun s => List.Chain' adjacent s.chain) ?_ ?_ _ _ _ _
    (make_chain_run start endT E) ?_ ?_ c hc
  · intro s hInv st hst
    obtain ⟨x, hxE, ht⟩ := mem_stepStates.mp hst
    obtain ⟨hu, c', hadd, hend, hsteq⟩ := tryAdapt_inr_elim ht
    rw [hsteq]
    exact chain_add_adjacent hInv hadd
  · intro s hInv c0 hc0
    obtain ⟨x, hxE, ht⟩ := mem_stepFound.mp hc0
    obtain ⟨hu, c', hadd, hend, rfl⟩ := tryAdapt_inl_elim ht
    obtain ⟨y, rfl, hxy⟩ := Chain.add_shape hadd
    rw [lastEnd_append_single] at hend
    refine List.Chain'.append (chain_add_adjacent hInv hadd) (List.chain'_singleton _) ?_
    intro u hu2 v hv
    rw [List.getLast?_concat] at hu2
    simp only [Option.mem_def, Option.some.injEq, List.head?_cons] at hu2 hv
    subst hu2; subst hv
    show y.b = (endMarker endT).a.opposite
    rw [show (endMarker endT).a = endT from rfl, ← hend, Thread.opposite_opposite]
  · intro s hs
    simp only [List.mem_singleton] at hs
    rw [hs]
    exact List.chain'_singleton _
  · intro c0 hc0
    cases hc0

/-- Witness for C5: the fixture chain returned by `make_chain` is adjacent
throughout. -/
theorem make_chain_adjacent_witness :
    List.Chain' adjacent
      [startMarker (Thread.F "A".toList),
        Adapter.new (Thread.M "A".toList) (Thread.F "B".toList),
        Adapter.new (Thread.M "B".toList) (Thread.F "C".toList),
        endMarker (Thread.M "C".toList)] :=
  make_chain_adjacent (Thread.F "A".toList) (Thread.M "C".toList)
    [Adapter.new (Thread.M "A".toList) (Thread.F "B".toList),
      Adapter.new (Thread.M "B".toList) (Thread.F "C".toList)] _ (by decide)

/-! ### The no-reuse invariant (claim C4) -/

/-- Claim C4: in every chain returned by `make_chain`, no two non-boundary
adapters (the entries strictly between the synthetic start and end markers)
are equal to each other under `Adapter`'s `PartialEq` — no inventory piece is
used twice in one chain. -/
theorem make_chain_no_reuse (start endT : Thread) (E : List Adapter) :
    ∀ c ∈ make_chain start endT E,
      ∃ mid, c = startMarker start :: (mid ++ [endMarker endT]) ∧
        List.Pairwise (fun u v => Adapter.eqB u v = false) mid := by
  intro c hc
  refine searchLoopF_inv E endT
    (fun c => ∃ mid, c = startMarker start :: (mid ++ [endMarker endT]) ∧
      List.Pairwise (fun u v => Adapter.eqB u v = false) mid)
    (fun s => ∃ mid, s.chain = startMarker start :: mid ∧
      List.Pairwise (fun u v => Adapter.eqB u v = false) mid ∧
      ∀ z ∈ mid, usedContains s.used z = true) ?_ ?_ _ _ _ _
    (make_chain_run start endT E) ?_ ?_ c hc
  · intro s hInv st hst
    obtain ⟨mid, hchain, hpw, hmem⟩ := hInv
    obtain ⟨x, hxE, ht⟩ := mem_stepStates.mp hst
    obtain ⟨hu, c', hadd, hend, hsteq⟩ := tryAdapt_inr_elim ht
    obtain ⟨y, rfl, hxy⟩ := Chain.add_shape hadd
    refine ⟨mid ++ [y], ?_, ?_, ?_⟩
    · rw [hsteq, hchain, List.cons_append]
    · rw [List.pairwise_append]
      refine ⟨hpw, by simp, ?_⟩
      intro u hu2 v hv
      simp only [List.mem_singleton] at hv
      rw [hv]
      by_contra huy
      have huy' : Adapter.eqB u y = true := by
        revert huy; cases Adapter.eqB u y <;> simp
      obtain ⟨w, hw, hwu⟩ := usedContains_iff.mp (hmem u hu2)
      have hwx : Adapter.eqB w x = true :=
        Adapter.eqB_trans (Adapter.eqB_trans hwu huy') (Adapter.eqB_symm hxy)
      have : usedContains s.used x = true := usedContains_iff.mpr ⟨w, hw, hwx⟩
      rw [hu] at this
      cases this
    · intro z hz
      rw [hsteq]
      rcases List.mem_append.mp hz with hz | hz
      · rw [usedContains_cons, hmem z hz, Bool.or_true]
      · simp only [List.mem_singleton] at hz
        subst hz
        rw [usedContains_cons, hxy, Bool.true_or]
  · intro s hInv c0 hc0
    obtain ⟨mid, hchain, hpw, hmem⟩ := hInv
    obtain ⟨x, hxE, ht⟩ := mem_stepFound.mp hc0
    obtain ⟨hu, c', hadd, hend, rfl⟩ := tryAdapt_inl_elim ht
    obtain ⟨y, rfl, hxy⟩ := Chain.add_shape hadd
    refine ⟨mid ++ [y], ?_, ?_⟩
    · rw [hchain]; simp
    · rw [List.pairwise_append]
      refine ⟨hpw, by simp, ?_⟩
      intro u hu2 v hv
      simp only [List.mem_singleton] at hv
      rw [hv]
      by_contra huy
      have huy' : Adapter.eqB u y = true := by
        revert huy; cases Adapter.eqB u y <;> simp
      obtain ⟨w, hw, hwu⟩ := usedContains_iff.mp (hmem u hu2)
      have hwx : Adapter.eqB w x = true :=
        Adapter.eqB_trans (Adapter.eqB_trans hwu huy') (Adapter.eqB_symm hxy)
      have : usedContains s.used x = true := usedContains_iff.mpr ⟨w, hw, hwx⟩
      rw [hu] at this
      cases this
  · intro s hs
    simp only [List.mem_singleton] at hs
    rw [hs]
    exact ⟨[], rfl, List.Pairwise.nil, by simp⟩
  · intro c0 hc0
    cases hc0

/-- Witness for C4: the fixture chain decomposes around the boundary markers
with pairwise-distinct middle adapters. -/
theorem make_chain_no_reuse_witness :
    ∃ mid,
      [startMarker (Thread.F "A".toList),
        Adapter.new (Thread.M "A".toList) (Thread.F "B".toList),
        Adapter.new (Thread.M "B".toList) (Thread.F "C".toList),
        endMarker (Thread.M "C".toList)] =
        startMarker (Thread.F "A".toList) :: (mid ++ [endMarker (Thread.M "C".toList)]) ∧
      List.Pairwise (fun u v => Adapter.eqB u v = false) mid :=
  make_chain_no_reuse (Thread.F "A".toList) (Thread.M "C".toList)
    [Adapter.new (Thread.M "A".toList) (Thread.F "B".toList),
      Adapter.new (Thread.M "B".toList) (Thread.F "C".toList)] _ (by decide)

/-! ### The degenerate zero-adapter chain (claim C2) -/

/-- Claim C2 counterexample: with `start = M("A")`, `end = F("A")` (so
`start.opposite() == end`) and an empty inventory, `make_chain` returns the
empty list — the degenerate two-marker chain is not included, because the
loop only checks completion after successfully adding an inventory adapter. -/
theorem make_chain_degenerate_cex :
    (Thread.M "A".toList).opposite = Thread.F "A".toList ∧
    make_chain (Thread.M "A".toList) (Thread.F "A".toList) [] = [] ∧
    [startMarker (Thread.M "A".toList), endMarker (Thread.F "A".toList)] ∉
      make_chain (Thread.M "A".toList) (Thread.F "A".toList) [] := by
  refine ⟨rfl, by decide, ?_⟩
  intro h
  rw [show make_chain (Thread.M "A".toList) (Thread.F "A".toList) [] = [] by decide] at h
  cases h

/-- Claim C2 (amended): the degenerate chain is never emitted.  Every chain
returned by `make_chain` contains at least one non-boundary adapter between
the two synthetic markers, even when `start.opposite() == end`: the loop
pushes the initial state and only tests completion after adding an inventory
adapter, so the direct start-to-end match is silently skipped. -/
theorem make_chain_no_degenerate (start endT : Thread) (E : List Adapter) :
    ∀ c ∈ make_chain start endT E,
      ∃ mid, c = startMarker start :: (mid ++ [endMarker endT]) ∧ mid ≠ [] := by
  intro c hc
  refine searchLoopF_inv E endT
    (fun c => ∃ mid, c = startMarker start :: (mid ++ [endMarker endT]) ∧ mid ≠ [])
    (fun s => ∃ mid, s.chain = startMarker start :: mid) ?_ ?_ _ _ _ _
    (make_chain_run start endT E) ?_ ?_ c hc
  · intro s hInv st hst
    obtain ⟨mid, hchain⟩ := hInv
    obtain ⟨x, hxE, ht⟩ := mem_stepStates.mp hst
    obtain ⟨hu, c', hadd, hend, hsteq⟩ := tryAdapt_inr_elim ht
    obtain ⟨y, rfl, hxy⟩ := Chain.add_shape hadd
    exact ⟨mid ++ [y], by rw [hsteq, hchain, List.cons_append]⟩
  · intro s hInv c0 hc0
    obtain ⟨mid, hchain⟩ := hInv
    obtain ⟨x, hxE, ht⟩ := mem_stepFound.mp hc0
    obtain ⟨hu, c', hadd, hend, rfl⟩ := tryAdapt_inl_elim ht
    obtain ⟨y, rfl, hxy⟩ := Chain.add_shape hadd
    refine ⟨mid ++ [y], ?_, by simp⟩
    rw [hchain]; simp
  · intro s hs
    simp only [List.mem_singleton] at hs
    rw [hs]
    exact ⟨[], rfl⟩
  · intro c0 hc0
    cases hc0

/-- Witness for C2 (amended) at the fixture input. -/
theorem make_chain_no_degenerate_witness :
    ∃ mid,
      [startMarker (Thread.F "A".toList),
        Adapter.new (Thread.M "A".toList) (Thread.F "B".toList),
        Adapter.new (Thread.M "B".toList) (Thread.F "C".toList),
        endMarker (Thread.M "C".toList)] =
        startMarker (Thread.F "A".toList) :: (mid ++ [endMarker (Thread.M "C".toList)]) ∧
      mid ≠ [] :=
  make_chain_no_degenerate (Thread.F "A".toList) (Thread.M "C".toList)
    [Adapter.new (Thread.M "A".toList) (Thread.F "B".toList),
      Adapter.new (Thread.M "B".toList) (Thread.F "C".toList)] _ (by decide)

/-! ### The completeness fixture (claim C1) -/

/-- Claim C1 counterexample: the call exactly as the claim states it,
`make_chain(F("A"), F("C"), {M("A")-F("B"), M("B")-F("C")})`, returns no
chain at all: the completion test requires the chain's open end to be
`end.opposite()`, and the chain built from both adapters ends open at
`F("C")`, which does not mate with `end = F("C")`. -/
theorem make_chain_fixture_cex :
    make_chain (Thread.F "A".toList) (Thread.F "C".toList)
      [Adapter.new (Thread.M "A".toList) (Thread.F "B".toList),
        Adapter.new (Thread.M "B".toList) (Thread.F "C".toList)] = [] := by
  decide

/-- Claim C1 (amended): for the inventory `{M("A")-F("B"), M("B")-F("C")}`,
the call `make_chain(F("A"), M("C"), inventory)` — the end thread must be the
`M("C")` socket the open `F("C")` end mates with — returns exactly one chain,
and that chain uses both inventory adapters, in that order, between the
synthetic start and end boundary markers. -/
theorem make_chain_fixture :
    make_chain (Thread.F "A".toList) (Thread.M "C".toList)
      [Adapter.new (Thread.M "A".toList) (Thread.F "B".toList),
        Adapter.new (Thread.M "B".toList) (Thread.F "C".toList)] =
      [[startMarker (Thread.F "A".toList),
        Adapter.new (Thread.M "A".toList) (Thread.F "B".toList),
        Adapter.new (Thread.M "B".toList) (Thread.F "C".toList),
        endMarker (Thread.M "C".toList)]] := by
  decide

/-! ### Reachability characterization of `make_chain` nonemptiness -/

/-- A search state can reach a completed chain: the inductive closure of the
two success outcomes of the inner loop body (`tryAdapt`).  This is the
abstract reachability relation the worklist loop enumerates. -/
inductive Completes (E : List Adapter) (endT : Thread) : SearchState → Prop where
  | direct (s : SearchState) (x : Adapter) (c : List Adapter) :
      x ∈ E → tryAdapt endT s x = some (Sum.inl c) → Completes E endT s
  | extend (s : SearchState) (x : Adapter) (st : SearchState) :
      x ∈ E → tryAdapt endT s x = some (Sum.inr st) → Completes E endT st →
      Completes E endT s

/-- Adding a new adapter to the inventory preserves reachability: the inner
loop body does not depend on the inventory beyond membership. -/
lemma Completes.mono {E : List Adapter} {endT : Thread} {s : SearchState}
    (h : Completes E endT s) (y : Adapter) : Completes (E ++ [y]) endT s := by
  induction h with
  | direct s x c hx ht => exact .direct s x c (List.mem_append_left _ hx) ht
  | extend s x st hx ht hc ih => exact .extend s x st (List.mem_append_left _ hx) ht ih

lemma searchLoopF_found_sub (E : List Adapter) (endT : Thread) :
    ∀ (fuel : Nat) (states : List SearchState) (found r : List (List Adapter)),
      searchLoopF E endT fuel states found = some r → ∀ c ∈ found, c ∈ r := by
  intro fuel
  induction fuel with
  | zero =>
    intro states found r h c hc
    cases states with
    | nil => exact (Option.some.inj h) ▸ hc
    | cons s rest => cases h
  | succ n ih =>
    intro states found r h c hc
    cases states with
    | nil => exact (Option.some.inj h) ▸ hc
    | cons s rest =>
      have h' : searchLoopF E endT n ((stepStates E endT s).reverse ++ rest)
          (found ++ stepFound E endT s) = some r := h
      exact ih _ _ _ h' c (List.mem_append_left _ hc)

/-- Soundness: a non-empty loop result means a chain was already found or
some pending state reaches a completion. -/
lemma searchLoopF_sound (E : List Adapter) (endT : Thread) :
    ∀ (fuel : Nat) (states : List SearchState) (found r : List (List Adapter)),
      searchLoopF E endT fuel states found = some r → r ≠ [] →
      found ≠ [] ∨ ∃ s ∈ states, Completes E endT s := by
  intro fuel
  induction fuel with
  | zero =>
    intro states found r h hr
    cases states with
    | nil => exact Or.inl ((Option.some.inj h) ▸ hr)
    | cons s rest => cases h
  | succ n ih =>
    intro states found r h hr
    cases states with
    | nil => exact Or.inl ((Option.some.inj h) ▸ hr)
    | cons s rest =>
      have h' : searchLoopF E endT n ((stepStates E endT s).reverse ++ rest)
          (found ++ stepFound E endT s) = some r := h
      rcases ih _ _ _ h' hr with hne | ⟨s', hs', hcomp⟩
      · by_cases hf : found = []
        · have hsf : stepFound E endT s ≠ [] := by
            intro hnil
            exact hne (by rw [hf, hnil]; rfl)
          obtain ⟨c, hc⟩ := List.exists_mem_of_ne_nil _ hsf
          obtain ⟨x, hx, ht⟩ := mem_stepFound.mp hc
          exact Or.inr ⟨s, List.mem_cons_self s rest, .direct s x c hx ht⟩
        · exact Or.inl hf
      · rcases List.mem_append.mp hs' with hrev | hrest
        · obtain ⟨x, hx, ht⟩ := mem_stepStates.mp (List.mem_reverse.mp hrev)
          exact Or.inr ⟨s, List.mem_cons_self s rest, .extend s x s' hx ht hcomp⟩
        · exact Or.inr ⟨s', List.mem_cons_of_mem _ hrest, hcomp⟩

/-- Completeness: if a pending state reaches a completion, the loop result is
non-empty. -/
lemma searchLoopF_complete (E : List Adapter) (endT : Thread) :
    ∀ (fuel : Nat) (states : List SearchState) (found r : List (List Adapter)),
      searchLoopF E endT fuel states found = some r →
      ∀ s ∈ states, Completes E endT s → r ≠ [] := by
  intro fuel
  induction fuel with
  | zero =>
    intro states found r h s hs hcomp
    cases states with
    | nil => cases hs
    | cons s0 rest => cases h
  | succ n ih =>
    intro states found r h s hs hcomp
    cases states with
    | nil => cases hs
    | cons s0 rest =>
      have h' : searchLoopF E endT n ((stepStates E endT s0).reverse ++ rest)
          (found ++ stepFound E endT s0) = some r := h
      rcases List.mem_cons.mp hs with rfl | hrest
      · cases hcomp with
        | direct _ x c hx ht =>
          have hcf : c ∈ stepFound E endT s := mem_stepFound.mpr ⟨x, hx, ht⟩
          have hcr : c ∈ r :=
            searchLoopF_found_sub E endT _ _ _ _ h' c (List.mem_append_right _ hcf)
          exact List.ne_nil_of_mem hcr
        | extend _ x st hx ht hst =>
          have hmem : st ∈ (stepStates E endT s).reverse ++ rest :=
            List.mem_append_left _ (List.mem_reverse.mpr (mem_stepStates.mpr ⟨x, hx, ht⟩))
          exact ih _ _ _ h' st hmem hst
      · exact ih _ _ _ h' s (List.mem_append_right _ hrest) hcomp

/-- `make_chain` finds a chain exactly when the initial state reaches a
completion. -/
lemma make_chain_ne_nil_iff (start endT : Thread) (E : List Adapter) :
    make_chain start endT E ≠ [] ↔ Completes E endT ⟨[], [startMarker start]⟩ := by
  constructor
  · intro h
    rcases searchLoopF_sound E endT _ _ _ _ (make_chain_run start endT E) h with
      hne | ⟨s, hs, hc⟩
    · cases hne rfl
    · simp only [List.mem_singleton] at hs
      rwa [← hs]
  · intro h
    exact searchLoopF_complete E endT _ _ _ _ (make_chain_run start endT E) _
      (List.mem_singleton.mpr rfl) h

/-- Adding an adapter to the inventory never disconnects a reachable pair. -/
lemma make_chain_mono {start endT : Thread} {E : List Adapter} (y : Adapter)
    (h : make_chain start endT E ≠ []) : make_chain start endT (E ++ [y]) ≠ [] := by
  rw [make_chain_ne_nil_iff] at h ⊢
  exact h.mono y

/-! ### `find_useful_additions` (claim C8) -/

/-- `HashSet<Thread>` collection (`collect`): insertion keeps the first
occurrence.  The iteration order of the Rust `HashSet` is unspecified; every
use below is order-insensitive (a sum of per-element indicators, and
membership). -/
def collectThreads (l : List Thread) : List Thread :=
  l.foldl (fun seen t => if t ∈ seen then seen else seen ++ [t]) []

/-- `HashSet<Adapter>` collection under the custom unordered
`PartialEq`/`Hash`: an adapter equal (modulo `Adapter.eqB`) to an
already-inserted one is dropped. -/
def collectAdapters (l : List Adapter) : List Adapter :=
  l.foldl (fun seen x => if usedContains seen x then seen else seen ++ [x]) []

/-- `all_threads`: the `opposite()` of every end (`.0`s then `.1`s) of every
inventory adapter, collected as a set. -/
def allThreads (E : List Adapter) : List Thread :=
  collectThreads ((E.map (fun x => x.a) ++ E.map (fun x => x.b)).map Thread.opposite)

/-- `all_adapters`: `Adapter::new(a, b)` for every ordered pair over
`allThreads`, collapsed under the unordered `Adapter` equality. -/
def allAdapters (E : List Adapter) : List Adapter :=
  collectAdapters ((allThreads E).flatMap fun a => (allThreads E).map fun b => Adapter.new a b)

/-- `count_chains`: how many of the given thread pairs are connectable with
the given equipment (capped at 1 per pair — binary reachable/not). -/
def count_chains (pairs : List (Thread × Thread)) (equipment : List Adapter) : Nat :=
  (pairs.map fun p => if (make_chain p.1 p.2 equipment).length = 0 then 0 else 1).sum

/-- `find_useful_additions`: score every candidate adapter over the known
thread vocabulary by the gain in pair reachability, ascending by score.  The
Rust `push`/`pop` of the trial adapter is `equipment ++ [new]`; `sort_by_key`
is a stable sort, and any stable sort by the same key produces the same list,
so it is modeled by a (stable) insertion sort. -/
def find_useful_additions (equipment : List Adapter) : List (Adapter × Nat) :=
  let pairs := (allAdapters equipment).map fun x => (x.a, x.b)
  let start := count_chains pairs equipment
  List.insertionSort (fun p q => p.2 ≤ q.2)
    ((allAdapters equipment).map fun new =>
      (new, count_chains pairs (equipment ++ [new]) - start))

lemma count_chains_mono (pairs : List (Thread × Thread)) (E : List Adapter) (y : Adapter) :
    count_chains pairs E ≤ count_chains pairs (E ++ [y]) := by
  unfold count_chains
  apply List.sum_le_sum
  intro p hp
  by_cases h : (make_chain p.1 p.2 E).length = 0
  · simp [h]
  · have hne : make_chain p.1 p.2 E ≠ [] := by
      intro hnil
      exact h (by rw [hnil]; rfl)
    have hne' := make_chain_mono y hne
    have hlen : ¬(make_chain p.1 p.2 (E ++ [y])).length = 0 := by
      intro hz
      exact hne' (List.length_eq_zero.mp hz)
    simp [h, hlen]

/-- Claim C8: every `(adapter, marginal_count)` pair returned by
`find_useful_additions` has a non-negative margin in the strong sense: the
reachable-pair count with the candidate added is at least the baseline count
without it, so the `usize` subtraction `count - start` never goes below zero,
and the reported `marginal_count` is exactly the (untruncated) difference. -/
theorem find_useful_additions_nonneg (E : List Adapter) (p : Adapter × Nat)
    (hp : p ∈ find_useful_additions E) :
    count_chains ((allAdapters E).map fun x => (x.a, x.b)) E ≤
      count_chains ((allAdapters E).map fun x => (x.a, x.b)) (E ++ [p.1]) ∧
    count_chains ((allAdapters E).map fun x => (x.a, x.b)) E + p.2 =
      count_chains ((allAdapters E).map fun x => (x.a, x.b)) (E ++ [p.1]) := by
  refine ⟨count_chains_mono _ E p.1, ?_⟩
  simp only [find_useful_additions] at hp
  have hp' := (List.perm_insertionSort (fun p q : Adapter × Nat => p.2 ≤ q.2) _).mem_iff.mp hp
  obtain ⟨new, hnew, hpe⟩ := List.mem_map.mp hp'
  cases hpe
  exact Nat.add_sub_cancel' (count_chains_mono ((allAdapters E).map fun x => (x.a, x.b)) E new)

/-- Witness for C8 on the one-adapter inventory `{M("A")-F("B")}` and the
candidate `F("A")-F("A")` (whose marginal count is 0). -/
theorem find_useful_additions_nonneg_witness :
    count_chains
        ((allAdapters [Adapter.new (Thread.M "A".toList) (Thread.F "B".toList)]).map
          fun x => (x.a, x.b))
        [Adapter.new (Thread.M "A".toList) (Thread.F "B".toList)] ≤
      count_chains
        ((allAdapters [Adapter.new (Thread.M "A".toList) (Thread.F "B".toList)]).map
          fun x => (x.a, x.b))
        ([Adapter.new (Thread.M "A".toList) (Thread.F "B".toList)] ++
          [Adapter.new (Thread.F "A".toList) (Thread.F "A".toList)]) ∧
    count_chains
        ((allAdapters [Adapter.new (Thread.M "A".toList) (Thread.F "B".toList)]).map
          fun x => (x.a, x.b))
        [Adapter.new (Thread.M "A".toList) (Thread.F "B".toList)] + 0 =
      count_chains
        ((allAdapters [Adapter.new (Thread.M "A".toList) (Thread.F "B".toList)]).map
          fun x => (x.a, x.b))
        ([Adapter.new (Thread.M "A".toList) (Thread.F "B".toList)] ++
          [Adapter.new (Thread.F "A".toList) (Thread.F "A".toList)]) :=
  find_useful_additions_nonneg [Adapter.new (Thread.M "A".toList) (Thread.F "B".toList)]
    (Adapter.new (Thread.F "A".toList) (Thread.F "A".toList), 0) (by decide)

end AdapterParty
